import Mathlib

/-!
Shallow embedding of the Twitter content handler
(content-handler/src/websites/twitter-handler.ts of the omnivore repository).

Strings are modelled as Lean `String` (a list of characters); timestamps as
epoch milliseconds (`Int`, the value of `new Date(created_at).getTime()`);
network and browser effects as explicit function parameters or `Except`
outcomes.  Every definition is translated from the TypeScript source, except
the few marked `Modelled from the spec:`.
-/

namespace OmnivoreTwitter

/-- Author record, an element of the `includes.users` side list of an API
response (interface `TweetIncludes`). -/
structure TwitterUser where
  id : String
  name : String
  profile_image_url : String
  username : String
  deriving DecidableEq

/-- Media record of the `includes.media` side list (interface `TweetIncludes`). -/
structure TweetMedia where
  preview_image_url : String
  type : String
  url : String
  media_key : String
  deriving DecidableEq

/-- The `includes` side lists of an API response.  `media` is optional in the
TypeScript interface. -/
structure TweetIncludes where
  users : List TwitterUser
  media : Option (List TweetMedia)
  deriving DecidableEq

/-- One url entity of a post (`entities.urls` element of `TweetData`). -/
structure UrlEntity where
  url : String
  expanded_url : String
  display_url : String
  deriving DecidableEq

/-- The `entities` object of a post. -/
structure TweetEntities where
  urls : List UrlEntity
  deriving DecidableEq

/-- One element of `referenced_tweets` of a post. -/
structure TweetReference where
  type : String
  id : String
  deriving DecidableEq

/-- The optional `attachments` object of a post. -/
structure TweetAttachments where
  media_keys : List String
  deriving DecidableEq

/-- The `data` object of a single post (interface `TweetData`).  The field
`id` is part of every API response (a post is fetched by its id); the
TypeScript interface omits declaring it but the resolver logic is about which
post a fetch returned, so the model keeps it.  `created_at` is an ISO string
in the source and is modelled by its epoch-millisecond value, which is the
only way the source consumes it for routing. -/
structure TweetData where
  id : String
  author_id : String
  text : String
  entities : TweetEntities
  created_at : Int
  referenced_tweets : List TweetReference
  conversation_id : String
  attachments : Option TweetAttachments
  deriving DecidableEq

/-- A single-post API response (interface `Tweet`). -/
structure Tweet where
  data : TweetData
  includes : TweetIncludes
  deriving DecidableEq

/-- The `meta` object of a search response. -/
structure TweetMeta where
  result_count : Nat
  deriving DecidableEq

/-- A multi-post API response (interface `Tweets`). -/
structure Tweets where
  data : List TweetData
  includes : TweetIncludes
  meta : TweetMeta
  deriving DecidableEq

/-- `MAX_THREAD_DEPTH` constant of the source. -/
def MAX_THREAD_DEPTH : Nat := 100

/-- `getTweetsFromResponse`: joins each post of a batch response to its media
by media key (`response.includes.media?.filter(...)`; a post without an
`attachments` object gets none of the media, since the optional chain yields
a falsy value) and attaches the shared author list. -/
def getTweetsFromResponse (response : Tweets) : List Tweet :=
  response.data.map (fun t =>
    { data := t
      includes :=
        { users := response.includes.users
          media := response.includes.media.map (fun ms =>
            ms.filter (fun m =>
              match t.attachments with
              | some a => a.media_keys.contains m.media_key
              | none => false)) } })

/-- `getRecentTweets`, applied to the search response `thread` that the
network call `getTweetThread(conversationId)` returned: an empty
`result_count` yields the empty list, otherwise the enriched posts are
reversed (the search returns them newest first). -/
def getRecentTweets (thread : Tweets) : List Tweet :=
  if thread.meta.result_count = 0 then []
  else (getTweetsFromResponse thread).reverse

/-- The Recent branch of `preHandle` (line `tweets = [tweet,
...(await getRecentTweets(conversationId))]`): the already fetched root post
is prepended to the reversed search results. -/
def assembleRecentThread (rootTweet : Tweet) (thread : Tweets) : List Tweet :=
  rootTweet :: getRecentTweets thread

/-- The two fetch strategies of the age-based routing. -/
inductive FetchPath where
  | recent : FetchPath
  | stale : FetchPath
  deriving DecidableEq

/-- `7 * 24 * 60 * 60 * 1000`, the millisecond window of the routing test. -/
def sevenDaysMs : Int := 7 * 24 * 60 * 60 * 1000

/-- The routing conditional of `preHandle`:
`new Date(tweet.data.created_at).getTime() < Date.now() - 7*24*60*60*1000`
selects the puppeteer path (`getOldTweets`), otherwise the search path. -/
def selectFetchPath (createdAtMs nowMs : Int) : FetchPath :=
  if createdAtMs < nowMs - sevenDaysMs then FetchPath.stale else FetchPath.recent

/-- Lines 295-300 of `preHandle`: fetch the post named by the URL; when its
`conversation_id` differs from the requested id, fetch again by the
conversation id.  The second component counts the `getTweetById` calls made. -/
def resolveRoot (fetchTweetById : String → Tweet) (tweetId : String) :
    Tweet × Nat :=
  let tweet := fetchTweetById tweetId
  let conversationId := tweet.data.conversation_id
  if conversationId ≠ tweetId then (fetchTweetById conversationId, 2)
  else (tweet, 1)

/-- JavaScript truthiness of a string: the empty string is the only falsy
string value. -/
def jsTruthy (s : String) : Bool := s != ""

/-- The predicate of line 304, `(u) => (u.id = authorId)`, applied to every
element by `Array.prototype.filter`: it is an assignment, so it overwrites
`u.id` with `authorId` and yields the assigned value, which `filter` tests
for truthiness.  Returns (elements kept by the filter, the list after the
side effects). -/
def filterWithAssign : List TwitterUser → String → List TwitterUser × List TwitterUser
  | [], _ => ([], [])
  | u :: us, authorId =>
    let assigned : TwitterUser := { u with id := authorId }
    let keepValue := authorId
    let rest := filterWithAssign us authorId
    ((if jsTruthy keepValue then assigned :: rest.1 else rest.1),
      assigned :: rest.2)

/-- Line 304 of `preHandle`:
`tweet.includes.users.filter((u) => (u.id = authorId))[0]`.  The first
component is the selected author (`undefined` is `none`), the second the
user list after the filter ran its predicate over every element. -/
def authorLookup (users : List TwitterUser) (authorId : String) :
    Option TwitterUser × List TwitterUser :=
  let r := filterWithAssign users authorId
  (r.1.head?, r.2)

/-- Outcome trace of one `getTweetIds` (puppeteer) invocation.  `result` is
what the call returns or throws, `closeCalls` how often `browser.close()`
ran, `loggedErrors` what `console.log(error)` received. -/
structure ScrapeTrace where
  result : Except String (List String)
  closeCalls : Nat
  loggedErrors : List String

/-- Control flow of `getTweetIds` around its effects: `puppeteer.launch`
happens before the `try` block (a launch failure propagates and no browser
exists to close); inside, the page work either returns ids or throws, the
`catch` logs and returns `[]`, and the `finally` closes the browser on both
paths. -/
def getTweetIdsExec (launchOutcome : Except String Unit)
    (pageOutcome : Except String (List String)) : ScrapeTrace :=
  match launchOutcome with
  | Except.error e => { result := Except.error e, closeCalls := 0, loggedErrors := [] }
  | Except.ok _ =>
    match pageOutcome with
    | Except.ok ids => { result := Except.ok ids, closeCalls := 1, loggedErrors := [] }
    | Except.error e => { result := Except.ok [], closeCalls := 1, loggedErrors := [e] }

/-- A DOM element as the in-page scan of `getTweetIds` sees it: a tag name
and an optional `href` attribute. -/
structure DomElement where
  tagName : String
  href : Option String
  deriving DecidableEq

/-- A `time` element of the rendered page together with its
`parentElement` (possibly null). -/
structure TimeNode where
  parentElement : Option DomElement
  deriving DecidableEq

/-- JavaScript `split` with the one-character separator `/`: the empty
string yields one empty segment, and every separator starts a new segment,
so the result is never the empty list. -/
def splitOnSlashChars : List Char → List (List Char)
  | [] => [[]]
  | c :: cs =>
    let r := splitOnSlashChars cs
    if c = '/' then [] :: r
    else
      match r with
      | [] => [[c]]
      | seg :: rest => (c :: seg) :: rest

/-- The source computes the trailing path segment of an href by splitting on
the slash, reversing and taking index 0
(`split` never yields an empty array, so the JavaScript index 0 is total). -/
def lastPathSegment (href : String) : String :=
  String.mk (((splitOnSlashChars href.toList).reverse).headD [])

/-- The body of one iteration of the scan loop in `getTweetIds`: `continue`
(here `none`) when the timestamp has no parent, the parent is a `SPAN`, the
parent has no `href`, or the trailing path segment is the empty string
(falsy); otherwise the id that gets pushed. -/
def scanTimeNode (node : TimeNode) : Option String :=
  match node.parentElement with
  | none => none
  | some el =>
    if el.tagName = "SPAN" then none
    else
      match el.href with
      | none => none
      | some href =>
        let id := lastPathSegment href
        if id = "" then none else some id

/-- The scan loop of `getTweetIds`:
`for (let i = 0; i < timeNodes.length && i < MAX_THREAD_DEPTH; i++)` visits
the first `MAX_THREAD_DEPTH` timestamp elements and pushes the id of each
iteration that does not `continue`. -/
def getTweetIdsFromDom (timeNodes : List TimeNode) : List String :=
  (timeNodes.take MAX_THREAD_DEPTH).filterMap scanTimeNode

/-- Modelled from the spec: a timestamp element "wrapped in an enclosing
link element carrying a valid trailing-path identifier" — its parent exists,
is a link rather than a plain span, has an href, and the trailing path
segment of that href is non-empty. -/
def wrappedInLinkWithId (node : TimeNode) : Bool :=
  match node.parentElement with
  | none => false
  | some el =>
    el.tagName != "SPAN" &&
      (match el.href with
       | none => false
       | some href => lastPathSegment href != "")

/-- Per-character table of the underscore `_.escape` helper used on line 306
and 308 (`&`, `<`, `>`, double quote, apostrophe and backtick become HTML
entities). -/
def escapeChar (c : Char) : List Char :=
  if c = '&' then "&amp;".toList
  else if c = '<' then "&lt;".toList
  else if c = '>' then "&gt;".toList
  else if c = '"' then "&quot;".toList
  else if c = Char.ofNat 39 then "&#x27;".toList
  else if c = Char.ofNat 96 then "&#x60;".toList
  else [c]

/-- `_.escape` on a character list. -/
def escapeList (cs : List Char) : List Char :=
  cs.flatMap escapeChar

/-- `_.escape(s)`. -/
def escape (s : String) : String :=
  String.mk (escapeList s.toList)

/-- `titleForAuthor`. -/
def titleForAuthor (author : TwitterUser) : String :=
  author.name ++ " on Twitter"

/-- Line 306: `const title = _.escape(titleForAuthor(author))`. -/
def ogTitle (author : TwitterUser) : String :=
  escape (titleForAuthor author)

/-- Line 308: `const description = _.escape(tweetData.text)`. -/
def ogDescription (tweetData : TweetData) : String :=
  escape tweetData.text

/-- The GetSubstitution step of `String.prototype.replace` (ECMAScript
22.1.3.18.1) for a string search, which has no capture groups: in the
replacement, dollar-dollar yields one dollar, dollar-ampersand the matched
string, dollar-backtick the portion of the subject before the match,
dollar-singlequote the portion after it; a dollar followed by any other
character (including digit references, which have no captures to refer to
and are emitted verbatim by engines) or ending the string is literal. -/
def getSubstitution (matched pre suf : List Char) : List Char → List Char
  | [] => []
  | c :: rest =>
    if c = '$' then
      match rest with
      | [] => ['$']
      | c2 :: r =>
        if c2 = '$' then '$' :: getSubstitution matched pre suf r
        else if c2 = '&' then matched ++ getSubstitution matched pre suf r
        else if c2 = Char.ofNat 96 then pre ++ getSubstitution matched pre suf r
        else if c2 = Char.ofNat 39 then suf ++ getSubstitution matched pre suf r
        else '$' :: c2 :: getSubstitution matched pre suf r
    else c :: getSubstitution matched pre suf rest

/-- `String.prototype.replace` with a plain-string pattern: replaces the
first occurrence of `pat` only (an empty pattern matches at the start),
inserting the replacement after GetSubstitution against the match position.
The accumulator `seen` holds the characters already passed over, in reverse,
so that the dollar-backtick substitution can see the text before the match. -/
def replaceFirstAux (pat rep : List Char) : List Char → List Char → List Char
  | seen, [] => if pat = [] then getSubstitution pat seen.reverse [] rep else []
  | seen, c :: cs =>
    if pat.isPrefixOf (c :: cs) then
      getSubstitution pat seen.reverse ((c :: cs).drop pat.length) rep ++
        (c :: cs).drop pat.length
    else c :: replaceFirstAux pat rep (c :: seen) cs

/-- `s.replace(pat, rep)` for string pattern `pat`. -/
def replaceFirst (s pat rep : String) : String :=
  String.mk (replaceFirstAux pat.toList rep.toList [] s.toList)

/-- The anchor interpolated on line 329:
an `a` element whose href is the expanded url and whose text is the
display url. -/
def anchorHtml (u : UrlEntity) : String :=
  "<a href=\"" ++ u.expanded_url ++ "\">" ++ u.display_url ++ "</a>"

/-- The entity loop of lines 325-332: for each url entity, replace (the
first occurrence of) its raw url in the running text by the anchor.  The
guard `if (tweetData.entities && tweetData.entities.urls)` is always taken
under the declared interface (an array, even empty, is truthy), and an empty
entity list leaves the text unchanged either way. -/
def substituteUrls (urls : List UrlEntity) (text : String) : String :=
  urls.foldl (fun t u => replaceFirst t u.url (anchorHtml u)) text

/-- The media element template of lines 334-345. -/
def mediaHtml (pageUrl : String) (m : TweetMedia) : String :=
  let linkUrl := if m.type = "photo" then m.url else pageUrl
  let previewUrl := if m.type = "photo" then m.url else m.preview_image_url
  "<a class=\"media-link\" href=" ++ linkUrl ++
    ">\n          <picture>\n            <img class=\"tweet-img\" src=" ++
    previewUrl ++ " />\n          </picture>\n          </a>"

/-- `tweet.includes.media?.map(...).join(chr 10) ?? empty`. -/
def includesHtml (pageUrl : String) (tweet : Tweet) : String :=
  match tweet.includes.media with
  | some ms => String.intercalate "\n" (ms.map (mediaHtml pageUrl))
  | none => ""

/-- The per-post fragment appended to `tweetsContent` on lines 347-350: the
paragraph holds the post text after url substitution, with no escaping. -/
def renderTweetHtml (pageUrl : String) (tweet : Tweet) : String :=
  let text := substituteUrls tweet.data.entities.urls tweet.data.text
  "\n      <p>" ++ text ++ "</p>\n      " ++ includesHtml pageUrl tweet ++ "\n    "

/-- The accumulation loop of lines 321-351. -/
def tweetsContent (pageUrl : String) (tweets : List Tweet) : String :=
  tweets.foldl (fun acc t => acc ++ renderTweetHtml pageUrl t) ""

/-- Modelled from the spec: `formatTimestamp` renders the creation time with
a locale-dependent library call (luxon `DATETIME_FULL`), an external concern;
modelled as printing the millisecond value.  No claim depends on its output. -/
def formatTimestamp (createdAtMs : Int) : String :=
  toString createdAtMs

/-- The attribution template of lines 353-359. -/
def attributionHtml (pageUrl : String) (author : TwitterUser)
    (tweetData : TweetData) : String :=
  "\n       — <a href=\"https://twitter.com/" ++ author.username ++ "\">" ++
    author.username ++ "</a> " ++ author.name ++ " <a href=\"" ++ pageUrl ++
    "\">" ++ formatTimestamp tweetData.created_at ++ "</a>\n    "

/-- The document template of lines 361-373: Open Graph head (author image,
escaped title, escaped description) and the body assembled from the thread
content and the attribution line. -/
def contentHtml (authorImage title description threadHtml attribution : String) :
    String :=
  "\n    <head>\n      <meta property=\"og:image\" content=\"" ++ authorImage ++
    "\" />\n      <meta property=\"og:image:secure_url\" content=\"" ++
    authorImage ++ "\" />\n      <meta property=\"og:title\" content=\"" ++
    title ++ "\" />\n      <meta property=\"og:description\" content=\"" ++
    description ++ "\" />\n    </head>\n    <body>\n      <div>\n        " ++
    threadHtml ++ "\n        " ++ attribution ++ "\n      </div>\n    </body>"

/-- `\w` of the source regular expression (ASCII letters, digits,
underscore). -/
def isWordChar (c : Char) : Bool :=
  c.isAlphanum || c == '_'

/-- Match a literal at the front of the input; on success return the rest. -/
def dropLiteral (lit cs : List Char) : Option (List Char) :=
  if lit.isPrefixOf cs then some (cs.drop lit.length) else none

/-- The optional group `#!/` of the regular expression: consume it when
present (greedy), otherwise continue unchanged.  No backtracking is needed:
when the group matched, the following `\w` cannot match the leftover `#`. -/
def matchBang (r0 : List Char) : List Char :=
  match dropLiteral "#!/".toList r0 with
  | some r => r
  | none => r0

/-- The `(?:es)?` group followed by the literal `/`: try `es/` first
(greedy), else `/` alone.  No backtracking is needed: when `es/` fails but
`es` would match, the following `/` cannot match the leftover `e`. -/
def matchSep (r3 : List Char) : Option (List Char) :=
  match dropLiteral "es/".toList r3 with
  | some r => some r
  | none => dropLiteral "/".toList r3

/-- One anchored attempt of the regular expression `TWITTER_URL_MATCH`
  (`twitter.com/`, optional `#!/`, a non-empty greedy word-character run,
  `/status`, optional `es`, `/`, a non-empty greedy digit run, optional
  `/` tail) at the start of `cs`, returning capture group 2 (the digit run).
  Each greedy piece is deterministic here: a shorter word run leaves a word
  character where `/` is required, and the tail after the digits is
  unconstrained, so no backtracking can succeed where this matcher fails. -/
def matchStatusAt (cs : List Char) : Option (List Char) :=
  match dropLiteral "twitter.com/".toList cs with
  | none => none
  | some r0 =>
    if (matchBang r0).takeWhile isWordChar = [] then none
    else
      match dropLiteral "/status".toList ((matchBang r0).dropWhile isWordChar) with
      | none => none
      | some r3 =>
        match matchSep r3 with
        | none => none
        | some r4 =>
          if r4.takeWhile Char.isDigit = [] then none
          else some (r4.takeWhile Char.isDigit)

/-- The unanchored search of `String.prototype.match`: try every start
position from the left and return the first capture. -/
def findStatusId : List Char → Option (List Char)
  | [] => none
  | c :: cs =>
    match matchStatusAt (c :: cs) with
    | some d => some d
    | none => findStatusId cs

/-- `tweetIdFromStatusUrl`: `url.match(TWITTER_URL_MATCH)?.[2]`. -/
def tweetIdFromStatusUrl (url : String) : Option String :=
  (findStatusId url.toList).map (fun d => String.mk d)

/-- Modelled from the spec: a string "matching the recognized Twitter status
pattern" — somewhere in it, `twitter.com/`, an optional `#!/`, a non-empty
handle of word characters, `/status` or `/statuses`, `/`, and a non-empty
digit sequence, followed by anything. -/
def recognizedStatusUrl (cs : List Char) : Prop :=
  ∃ pre bang handle es tid post,
    cs = pre ++ "twitter.com/".toList ++ bang ++ handle ++
      "/status".toList ++ es ++ "/".toList ++ tid ++ post ∧
    (bang = [] ∨ bang = "#!/".toList) ∧
    handle ≠ [] ∧ handle.all isWordChar = true ∧
    (es = [] ∨ es = "es".toList) ∧
    tid ≠ [] ∧ tid.all Char.isDigit = true

/-! Concrete sample inputs used by witnesses and counterexamples. -/

/-- Empty side lists. -/
def sampleIncludes : TweetIncludes := ⟨[], none⟩

/-- A post with the given id, serving as its own conversation root. -/
def sampleData (i : String) : TweetData :=
  ⟨i, "9", "t", ⟨[]⟩, 0, [], i, none⟩

/-- A single-post response around `sampleData`. -/
def sampleTweet (i : String) : Tweet := ⟨sampleData i, sampleIncludes⟩

/-- A synthetic 3-post conversation search response, newest first. -/
def sampleSearchResp : Tweets :=
  ⟨[sampleData "3", sampleData "2", sampleData "1"], sampleIncludes, ⟨3⟩⟩

/-- A fetch oracle that returns, for each requested id, a post with that id
whose conversation root is post `1`. -/
def sampleFetch : String → Tweet :=
  fun i => ⟨⟨i, "9", "t", ⟨[]⟩, 0, [], "1", none⟩, sampleIncludes⟩

/-- A concrete author record. -/
def sampleUser : TwitterUser := ⟨"a", "n", "p", "u"⟩

/-- A timestamp wrapped in a plain span (skipped by the scan). -/
def cexSpanNode : TimeNode := ⟨some ⟨"SPAN", some "x/1"⟩⟩

/-- A timestamp wrapped in a link with a valid trailing-path id. -/
def cexLinkNode : TimeNode := ⟨some ⟨"A", some "x/9"⟩⟩

/-- 101 timestamps: a span-wrapped one followed by 100 link-wrapped ones. -/
def cexNodes : List TimeNode := cexSpanNode :: List.replicate 100 cexLinkNode

/-- A post whose author-supplied text contains raw markup and no entities. -/
def unescapedTweet : Tweet :=
  ⟨⟨"1", "9", "<b>x</b>", ⟨[]⟩, 0, [], "1", none⟩, sampleIncludes⟩

/-- A tracked url entity. -/
def sampleEntity : UrlEntity := ⟨"http://t.co/x", "http://ex.com", "ex.com"⟩

/-- An entity whose raw url does not occur in `sampleText`. -/
def untrackedEntity : UrlEntity := ⟨"zzz", "a", "b"⟩

/-- A post text containing the tracked url once. -/
def sampleText : String := "see http://t.co/x end"

/-- An entity whose expanded url is a dollar-ampersand substitution
pattern. -/
def dollarEntity : UrlEntity := ⟨"u", "$&", "d"⟩

/-- A text containing the url of `dollarEntity` once. -/
def dollarText : String := "xuy"

end OmnivoreTwitter

namespace OmnivoreTwitter

/-! Helper lemmas. -/

theorem length_filterMap_eq_length_filter {α β : Type} (f : α → Option β) :
    ∀ l : List α, (l.filterMap f).length = (l.filter (fun a => (f a).isSome)).length := by
  intro l
  induction l with
  | nil => rfl
  | cons a l ih =>
    cases h : f a <;> simp [List.filterMap_cons, List.filter_cons, h, ih]

theorem scanTimeNode_isSome_eq (n : TimeNode) :
    (scanTimeNode n).isSome = wrappedInLinkWithId n := by
  rcases n with ⟨_ | ⟨tag, _ | h⟩⟩
  · rfl
  · by_cases htag : tag = "SPAN" <;> simp [scanTimeNode, wrappedInLinkWithId, htag]
  · by_cases htag : tag = "SPAN" <;> by_cases hseg : lastPathSegment h = "" <;>
      simp [scanTimeNode, wrappedInLinkWithId, htag, hseg]

theorem getTweetsFromResponse_map_data (r : Tweets) :
    (getTweetsFromResponse r).map (fun t => t.data) = r.data := by
  simp [getTweetsFromResponse, List.map_map, Function.comp_def]

theorem filterWithAssign_mutates (aid : String) :
    ∀ us : List TwitterUser,
      (filterWithAssign us aid).2 = us.map (fun v => { v with id := aid }) := by
  intro us
  induction us with
  | nil => rfl
  | cons u us ih => simp [filterWithAssign, ih]

theorem toList_append (s t : String) : (s ++ t).toList = s.toList ++ t.toList :=
  rfl

theorem mk_toList (s : String) : String.mk s.toList = s := by
  cases s
  rfl

theorem escapeList_cons (c : Char) (cs : List Char) :
    escapeList (c :: cs) = escapeChar c ++ escapeList cs := rfl

theorem lt_not_mem_escapeChar (c : Char) : '<' ∉ escapeChar c := by
  by_cases h1 : c = '&'
  · simp only [escapeChar, if_pos h1]
    decide
  by_cases h2 : c = '<'
  · simp only [escapeChar, if_neg h1, if_pos h2]
    decide
  by_cases h3 : c = '>'
  · simp only [escapeChar, if_neg h1, if_neg h2, if_pos h3]
    decide
  by_cases h4 : c = '"'
  · simp only [escapeChar, if_neg h1, if_neg h2, if_neg h3, if_pos h4]
    decide
  by_cases h5 : c = Char.ofNat 39
  · simp only [escapeChar, if_neg h1, if_neg h2, if_neg h3, if_neg h4, if_pos h5]
    decide
  by_cases h6 : c = Char.ofNat 96
  · simp only [escapeChar, if_neg h1, if_neg h2, if_neg h3, if_neg h4, if_neg h5,
      if_pos h6]
    decide
  simp only [escapeChar, if_neg h1, if_neg h2, if_neg h3, if_neg h4, if_neg h5,
    if_neg h6]
  intro hmem
  rcases List.mem_singleton.mp hmem with hh
  exact h2 hh.symm

theorem lt_not_mem_escapeList (cs : List Char) : '<' ∉ escapeList cs := by
  induction cs with
  | nil => simp [escapeList]
  | cons c cs ih =>
    rw [escapeList_cons]
    intro hmem
    rcases List.mem_append.mp hmem with hh | hh
    · exact lt_not_mem_escapeChar c hh
    · exact ih hh

theorem lt_escape_infix (cs : List Char) (h : '<' ∈ cs) :
    "&lt;".toList <:+: escapeList cs := by
  induction cs with
  | nil => cases h
  | cons c cs ih =>
    rw [escapeList_cons]
    rcases List.mem_cons.mp h with hc | hc
    · have hch : escapeChar c = "&lt;".toList := by
        rw [← hc]
        rfl
      exact ⟨[], escapeList cs, by rw [hch]; rfl⟩
    · obtain ⟨s, t, hst⟩ := ih hc
      exact ⟨escapeChar c ++ s, t, by rw [← hst]; simp [List.append_assoc]⟩

theorem isPrefixOf_eq_true_iff : ∀ (l₁ l₂ : List Char),
    l₁.isPrefixOf l₂ = true ↔ ∃ t, l₂ = l₁ ++ t
  | [], l₂ => by simp [List.isPrefixOf]
  | a :: as, [] => by
    constructor
    · intro hh
      cases hh
    · rintro ⟨t, ht⟩
      cases ht
  | a :: as, b :: bs => by
    rw [show (a :: as).isPrefixOf (b :: bs) = ((a == b) && as.isPrefixOf bs) from rfl]
    rw [Bool.and_eq_true, beq_iff_eq, isPrefixOf_eq_true_iff as bs]
    constructor
    · rintro ⟨rfl, t, rfl⟩
      exact ⟨t, rfl⟩
    · rintro ⟨t, ht⟩
      injection ht with h1 h2
      exact ⟨h1.symm, t, h2⟩

theorem getSubstitution_no_dollar (matched pre suf : List Char) :
    ∀ rep : List Char, '$' ∉ rep → getSubstitution matched pre suf rep = rep := by
  intro rep
  induction rep with
  | nil =>
    intro _
    rfl
  | cons c rest ih =>
    intro h
    have hc : ¬ c = '$' := fun hh => h (by rw [hh]; exact List.mem_cons_self _ _)
    have hrest : '$' ∉ rest := fun hh => h (List.mem_cons_of_mem c hh)
    unfold getSubstitution
    rw [if_neg hc, ih hrest]

theorem replaceFirstAux_not_occurs (pat rep : List Char) :
    ∀ s seen : List Char, ¬ pat <:+: s → replaceFirstAux pat rep seen s = s := by
  intro s
  induction s with
  | nil =>
    intro seen h
    have hpat : pat ≠ [] := by
      intro hp
      exact h (by rw [hp])
    simp only [replaceFirstAux, if_neg hpat]
  | cons c cs ih =>
    intro seen h
    have hnp : ¬ pat.isPrefixOf (c :: cs) = true := by
      intro hp
      obtain ⟨t, ht⟩ := (isPrefixOf_eq_true_iff pat (c :: cs)).mp hp
      exact h ⟨[], t, by rw [ht]; rfl⟩
    have hcs : ¬ pat <:+: cs := by
      intro hin
      obtain ⟨s₀, t₀, hst⟩ := hin
      exact h ⟨c :: s₀, t₀, by rw [← hst]; rfl⟩
    simp only [replaceFirstAux, if_neg hnp]
    rw [ih (c :: seen) hcs]

theorem replaceFirstAux_first_occurrence (pat rep : List Char) (hpat : pat ≠ []) :
    ∀ s seen : List Char, pat <:+: s →
      ∃ pre suf, s = pre ++ pat ++ suf ∧
        replaceFirstAux pat rep seen s =
          pre ++ getSubstitution pat (seen.reverse ++ pre) suf rep ++ suf ∧
        ∀ pre2 suf2, s = pre2 ++ pat ++ suf2 → pre.length ≤ pre2.length := by
  intro s
  induction s with
  | nil =>
    intro seen hinf
    obtain ⟨s₀, t₀, hst⟩ := hinf
    exfalso
    apply hpat
    have := List.append_eq_nil.mp (List.append_eq_nil.mp hst).1
    exact this.2
  | cons c cs ih =>
    intro seen hinf
    by_cases hp : pat.isPrefixOf (c :: cs) = true
    · obtain ⟨t, ht⟩ := (isPrefixOf_eq_true_iff pat (c :: cs)).mp hp
      refine ⟨[], t, by rw [ht]; rfl, ?_, fun pre2 suf2 _ => Nat.zero_le _⟩
      simp only [replaceFirstAux, if_pos hp]
      rw [ht, List.drop_left, List.append_nil]
      rfl
    · have hcs : pat <:+: cs := by
        obtain ⟨s₀, t₀, hst⟩ := hinf
        cases s₀ with
        | nil =>
          exfalso
          apply hp
          exact (isPrefixOf_eq_true_iff pat (c :: cs)).mpr ⟨t₀, by rw [← hst]; rfl⟩
        | cons d s₀ =>
          have hst₂ : d :: (s₀ ++ pat ++ t₀) = c :: cs := hst
          exact ⟨s₀, t₀, (List.cons_eq_cons.mp hst₂).2⟩
      obtain ⟨pre, suf, hdec, hrep, hmin⟩ := ih (c :: seen) hcs
      refine ⟨c :: pre, suf, by rw [hdec]; rfl, ?_, ?_⟩
      · simp only [replaceFirstAux, if_neg hp]
        rw [hrep]
        simp [List.reverse_cons, List.append_assoc]
      · intro pre2 suf2 heq
        cases pre2 with
        | nil =>
          exfalso
          apply hp
          exact (isPrefixOf_eq_true_iff pat (c :: cs)).mpr ⟨suf2, by rw [heq]; rfl⟩
        | cons e pre2 =>
          have heq₂ : c :: cs = e :: (pre2 ++ pat ++ suf2) := heq
          exact Nat.succ_le_succ (hmin pre2 suf2 (List.cons_eq_cons.mp heq₂).2)

theorem dropLiteral_eq_some_iff (lit cs r : List Char) :
    dropLiteral lit cs = some r ↔ cs = lit ++ r := by
  unfold dropLiteral
  by_cases hp : lit.isPrefixOf cs = true
  · obtain ⟨t, ht⟩ := (isPrefixOf_eq_true_iff lit cs).mp hp
    rw [if_pos hp, ht, List.drop_left]
    constructor
    · intro h
      rw [Option.some_inj.mp h]
    · intro h
      rw [List.append_cancel_left h]
  · rw [if_neg hp]
    constructor
    · intro h
      cases h
    · intro h
      exact absurd ((isPrefixOf_eq_true_iff lit cs).mpr ⟨r, h⟩) hp

theorem dropLiteral_append (lit r : List Char) :
    dropLiteral lit (lit ++ r) = some r :=
  (dropLiteral_eq_some_iff lit (lit ++ r) r).mpr rfl

theorem takeWhile_append_exact (p : Char → Bool) :
    ∀ (xs : List Char) (y : Char) (ys : List Char), xs.all p = true → p y = false →
      (xs ++ y :: ys).takeWhile p = xs ∧ (xs ++ y :: ys).dropWhile p = y :: ys := by
  intro xs
  induction xs with
  | nil =>
    intro y ys _ hy
    constructor
    · rw [List.nil_append, List.takeWhile_cons, if_neg (by rw [hy]; exact Bool.false_ne_true)]
    · rw [List.nil_append, List.dropWhile_cons, if_neg (by rw [hy]; exact Bool.false_ne_true)]
  | cons x xs ih =>
    intro y ys hall hy
    rw [List.all_cons, Bool.and_eq_true] at hall
    obtain ⟨h1, h2⟩ := ih y ys hall.2 hy
    constructor
    · rw [List.cons_append, List.takeWhile_cons, if_pos hall.1, h1]
    · rw [List.cons_append, List.dropWhile_cons, if_pos hall.1, h2]

theorem all_takeWhile_true (p : Char → Bool) :
    ∀ l : List Char, (l.takeWhile p).all p = true := by
  intro l
  induction l with
  | nil => rfl
  | cons a l ih =>
    cases hpa : p a with
    | true => simp [List.takeWhile_cons, hpa, ih]
    | false => simp [List.takeWhile_cons, hpa]

theorem takeWhile_cons_head_true (p : Char → Bool) (c : Char) (l : List Char)
    (h : p c = true) : (c :: l).takeWhile p = c :: l.takeWhile p := by
  rw [List.takeWhile_cons, if_pos h]

theorem matchBang_eq (r0 : List Char) :
    (∃ r, matchBang r0 = r ∧ r0 = "#!/".toList ++ r) ∨
    (dropLiteral "#!/".toList r0 = none ∧ matchBang r0 = r0) := by
  unfold matchBang
  cases h : dropLiteral "#!/".toList r0 with
  | none => exact Or.inr ⟨rfl, rfl⟩
  | some r => exact Or.inl ⟨r, rfl, (dropLiteral_eq_some_iff _ _ _).mp h⟩

theorem matchBang_hash (r : List Char) : matchBang ("#!/".toList ++ r) = r := by
  unfold matchBang
  rw [dropLiteral_append]

theorem matchBang_word (c : Char) (r : List Char) (hc : isWordChar c = true) :
    matchBang (c :: r) = c :: r := by
  unfold matchBang
  have h1 : dropLiteral "#!/".toList (c :: r) = none := by
    unfold dropLiteral
    rw [if_neg]
    intro hp
    obtain ⟨t, ht⟩ := (isPrefixOf_eq_true_iff _ _).mp hp
    have hce : c = '#' := (List.cons_eq_cons.mp ht).1
    rw [hce] at hc
    exact absurd hc (by decide)
  rw [h1]

theorem matchSep_eq_some (r3 r4 : List Char) (h : matchSep r3 = some r4) :
    r3 = "es/".toList ++ r4 ∨ r3 = "/".toList ++ r4 := by
  unfold matchSep at h
  cases h1 : dropLiteral "es/".toList r3 with
  | some r =>
    rw [h1] at h
    rw [← Option.some_inj.mp h]
    exact Or.inl ((dropLiteral_eq_some_iff _ _ _).mp h1)
  | none =>
    rw [h1] at h
    exact Or.inr ((dropLiteral_eq_some_iff _ _ _).mp h)

theorem matchSep_es (r : List Char) : matchSep ("es/".toList ++ r) = some r := by
  unfold matchSep
  rw [dropLiteral_append]

theorem matchSep_slash (r : List Char) : matchSep ("/".toList ++ r) = some r := by
  unfold matchSep
  have h1 : dropLiteral "es/".toList ("/".toList ++ r) = none := by
    unfold dropLiteral
    rw [if_neg]
    intro hp
    obtain ⟨t, ht⟩ := (isPrefixOf_eq_true_iff _ _).mp hp
    exact absurd (List.cons_eq_cons.mp ht).1 (by decide)
  rw [h1]
  exact dropLiteral_append "/".toList r

theorem matchStatusAt_sound (cs d : List Char) (h : matchStatusAt cs = some d) :
    ∃ bang handle sep rest,
      cs = "twitter.com/".toList ++ bang ++ handle ++ "/status".toList ++ sep ++
        d ++ rest ∧
      (bang = [] ∨ bang = "#!/".toList) ∧
      handle ≠ [] ∧ handle.all isWordChar = true ∧
      (sep = "/".toList ∨ sep = "es/".toList) ∧
      d ≠ [] ∧ d.all Char.isDigit = true := by
  unfold matchStatusAt at h
  cases h0 : dropLiteral "twitter.com/".toList cs with
  | none =>
    rw [h0] at h
    cases h
  | some r0 =>
    rw [h0] at h
    dsimp only at h
    by_cases hh : (matchBang r0).takeWhile isWordChar = []
    · rw [if_pos hh] at h
      cases h
    · rw [if_neg hh] at h
      cases h3 : dropLiteral "/status".toList ((matchBang r0).dropWhile isWordChar) with
      | none =>
        rw [h3] at h
        cases h
      | some r3 =>
        rw [h3] at h
        dsimp only at h
        cases h4 : matchSep r3 with
        | none =>
          rw [h4] at h
          cases h
        | some r4 =>
          rw [h4] at h
          dsimp only at h
          by_cases hd : r4.takeWhile Char.isDigit = []
          · rw [if_pos hd] at h
            cases h
          · rw [if_neg hd] at h
            have hdd : d = r4.takeWhile Char.isDigit := (Option.some_inj.mp h).symm
            have hcs : cs = "twitter.com/".toList ++ r0 :=
              (dropLiteral_eq_some_iff _ _ _).mp h0
            have hbangE : ∃ bang r1, (bang = [] ∨ bang = "#!/".toList) ∧
                r0 = bang ++ r1 ∧ matchBang r0 = r1 := by
              rcases matchBang_eq r0 with ⟨r, hbeq, hr0⟩ | ⟨-, hbeq⟩
              · exact ⟨"#!/".toList, r, Or.inr rfl, hr0, hbeq⟩
              · exact ⟨[], r0, Or.inl rfl, rfl, hbeq⟩
            obtain ⟨bang, r1, hbangor, hr0, hbeq⟩ := hbangE
            rw [hbeq] at hh h3
            obtain ⟨handle, hhandle⟩ : ∃ x, r1.takeWhile isWordChar = x := ⟨_, rfl⟩
            obtain ⟨r2, hr2⟩ : ∃ x, r1.dropWhile isWordChar = x := ⟨_, rfl⟩
            have hr1 : r1 = handle ++ r2 := by
              rw [← hhandle, ← hr2, List.takeWhile_append_dropWhile]
            rw [hhandle] at hh
            rw [hr2] at h3
            have hr2s : r2 = "/status".toList ++ r3 :=
              (dropLiteral_eq_some_iff _ _ _).mp h3
            have hsepE : ∃ sep, (sep = "/".toList ∨ sep = "es/".toList) ∧
                r3 = sep ++ r4 := by
              rcases matchSep_eq_some r3 r4 h4 with hse | hse
              · exact ⟨"es/".toList, Or.inr rfl, hse⟩
              · exact ⟨"/".toList, Or.inl rfl, hse⟩
            obtain ⟨sep, hsepor, hr3s⟩ := hsepE
            obtain ⟨rest, hrest⟩ : ∃ x, r4.dropWhile Char.isDigit = x := ⟨_, rfl⟩
            have hr4 : r4 = d ++ rest := by
              rw [hdd, ← hrest, List.takeWhile_append_dropWhile]
            refine ⟨bang, handle, sep, rest, ?_, hbangor, hh, ?_, hsepor, ?_, ?_⟩
            · rw [hcs, hr0, hr1, hr2s, hr3s, hr4]
              simp [List.append_assoc]
            · rw [← hhandle]
              exact all_takeWhile_true _ _
            · intro hde
              apply hd
              rw [← hdd]
              exact hde
            · rw [hdd]
              exact all_takeWhile_true _ _

theorem matchStatusAt_complete (bang handle sep tid post : List Char)
    (hbang : bang = [] ∨ bang = "#!/".toList)
    (hh : handle ≠ []) (hhw : handle.all isWordChar = true)
    (hsep : sep = "/".toList ∨ sep = "es/".toList)
    (ht : tid ≠ []) (htd : tid.all Char.isDigit = true) :
    (matchStatusAt ("twitter.com/".toList ++ bang ++ handle ++
      "/status".toList ++ sep ++ tid ++ post)).isSome = true := by
  have hmain : "twitter.com/".toList ++ bang ++ handle ++ "/status".toList ++
      sep ++ tid ++ post =
      "twitter.com/".toList ++
        (bang ++ (handle ++ ("/status".toList ++ (sep ++ (tid ++ post))))) := by
    simp [List.append_assoc]
  rw [hmain]
  unfold matchStatusAt
  rw [dropLiteral_append]
  dsimp only
  have hbm : matchBang (bang ++ (handle ++ ("/status".toList ++ (sep ++ (tid ++ post))))) =
      handle ++ ("/status".toList ++ (sep ++ (tid ++ post))) := by
    rcases hbang with hb | hb
    · rw [hb, List.nil_append]
      cases handle with
      | nil => exact absurd rfl hh
      | cons c hs =>
        have hcw : isWordChar c = true := by
          rw [List.all_cons, Bool.and_eq_true] at hhw
          exact hhw.1
        exact matchBang_word c _ hcw
    · rw [hb]
      exact matchBang_hash _
  rw [hbm]
  have htake := takeWhile_append_exact isWordChar handle '/'
    ("status".toList ++ (sep ++ (tid ++ post))) hhw (by decide)
  have ht1 : (handle ++ ("/status".toList ++ (sep ++ (tid ++ post)))).takeWhile
      isWordChar = handle := htake.1
  have ht2 : (handle ++ ("/status".toList ++ (sep ++ (tid ++ post)))).dropWhile
      isWordChar = '/' :: ("status".toList ++ (sep ++ (tid ++ post))) := htake.2
  rw [ht1, if_neg hh, ht2]
  have hstat : dropLiteral "/status".toList
      ('/' :: ("status".toList ++ (sep ++ (tid ++ post)))) =
      some (sep ++ (tid ++ post)) :=
    dropLiteral_append "/status".toList (sep ++ (tid ++ post))
  rw [hstat]
  dsimp only
  have hsepm : matchSep (sep ++ (tid ++ post)) = some (tid ++ post) := by
    rcases hsep with hs | hs
    · rw [hs]
      exact matchSep_slash _
    · rw [hs]
      exact matchSep_es _
  rw [hsepm]
  dsimp only
  cases tid with
  | nil => exact absurd rfl ht
  | cons t0 ts =>
    have ht0 : Char.isDigit t0 = true := by
      rw [List.all_cons, Bool.and_eq_true] at htd
      exact htd.1
    have htw : ((t0 :: ts) ++ post).takeWhile Char.isDigit =
        t0 :: (ts ++ post).takeWhile Char.isDigit :=
      takeWhile_cons_head_true Char.isDigit t0 (ts ++ post) ht0
    rw [htw, if_neg (List.cons_ne_nil t0 _)]
    rfl

theorem findStatusId_sound : ∀ (cs d : List Char),
    findStatusId cs = some d → ∃ suf, suf <:+ cs ∧ matchStatusAt suf = some d := by
  intro cs
  induction cs with
  | nil =>
    intro d h
    cases h
  | cons c cs ih =>
    intro d h
    unfold findStatusId at h
    cases hm : matchStatusAt (c :: cs) with
    | some d₂ =>
      rw [hm] at h
      dsimp only at h
      exact ⟨c :: cs, List.suffix_refl _, by rw [hm, Option.some_inj.mp h]⟩
    | none =>
      rw [hm] at h
      dsimp only at h
      obtain ⟨suf, hs, hmm⟩ := ih d h
      exact ⟨suf, hs.trans (List.suffix_cons c cs), hmm⟩

theorem findStatusId_complete : ∀ (cs suf : List Char), suf <:+ cs →
    (matchStatusAt suf).isSome = true → (findStatusId cs).isSome = true := by
  intro cs
  induction cs with
  | nil =>
    intro suf hs hm
    rw [List.suffix_nil.mp hs] at hm
    exact absurd hm (by decide)
  | cons c cs ih =>
    intro suf hs hm
    unfold findStatusId
    cases hmc : matchStatusAt (c :: cs) with
    | some d => rfl
    | none =>
      rcases List.suffix_cons_iff.mp hs with he | he
      · rw [he, hmc] at hm
        exact absurd hm (by decide)
      · dsimp only
        exact ih suf he hm

theorem isSome_map_eq (f : List Char → String) (o : Option (List Char)) :
    (o.map f).isSome = o.isSome := by
  cases o <;> rfl

/-! Claim theorems. -/

/-- C2 (amended): on the Recent path the search-derived portion of the
thread is the exact reversal of the post order of the response, and the resolver
prepends the already fetched root post in front of it, so the assembled
thread is the root post followed by the reversed search results. -/
theorem recentThread_is_root_cons_reversed (root : Tweet) (resp : Tweets)
    (h : resp.meta.result_count ≠ 0) :
    (assembleRecentThread root resp).map (fun t => t.data) =
      root.data :: resp.data.reverse ∧
    (getRecentTweets resp).map (fun t => t.data) = resp.data.reverse := by
  have hrec : (getRecentTweets resp).map (fun t => t.data) = resp.data.reverse := by
    unfold getRecentTweets
    rw [if_neg h, List.map_reverse, getTweetsFromResponse_map_data]
  exact ⟨by simp [assembleRecentThread, hrec], hrec⟩

/-- C2 (witness): the amended claim at the synthetic 3-post response. -/
theorem recentThread_is_root_cons_reversed_witness :
    (assembleRecentThread (sampleTweet "0") sampleSearchResp).map (fun t => t.data) =
      (sampleTweet "0").data :: sampleSearchResp.data.reverse :=
  (recentThread_is_root_cons_reversed (sampleTweet "0") sampleSearchResp
    (by decide)).1

/-- C2 (counterexample): for a synthetic 3-post newest-first search response
the assembled thread is not the reversal of the input order — the already
fetched root post is prepended, giving 4 posts. -/
theorem recentThread_not_plain_reversal_cex :
    (assembleRecentThread (sampleTweet "0") sampleSearchResp).map (fun t => t.data) ≠
      sampleSearchResp.data.reverse ∧
    (assembleRecentThread (sampleTweet "0") sampleSearchResp).length = 4 ∧
    sampleSearchResp.data.length = 3 := by decide

/-- C3 (amended): the routing decision is strictly greater-than on the far
side: the Stale (puppeteer) path is taken exactly when the age of the root post
exceeds 7 days, and the Recent (search) path is taken exactly when the age is at most
7 days — a post aged exactly 7 days routes Recent, not Stale. -/
theorem selectFetchPath_boundary (createdAtMs nowMs : Int) :
    (selectFetchPath createdAtMs nowMs = FetchPath.stale ↔
      nowMs - createdAtMs > sevenDaysMs) ∧
    (selectFetchPath createdAtMs nowMs = FetchPath.recent ↔
      nowMs - createdAtMs ≤ sevenDaysMs) := by
  unfold selectFetchPath
  by_cases h : createdAtMs < nowMs - sevenDaysMs
  · rw [if_pos h]
    constructor
    · constructor
      · intro _
        omega
      · intro _
        rfl
    · constructor
      · intro hh
        exact FetchPath.noConfusion hh
      · intro hh
        exact absurd h (by omega)
  · rw [if_neg h]
    constructor
    · constructor
      · intro hh
        exact FetchPath.noConfusion hh
      · intro hh
        exact absurd hh (by omega)
    · constructor
      · intro _
        omega
      · intro _
        rfl

/-- C3 (witness): a post strictly older than 7 days routes Stale. -/
theorem selectFetchPath_boundary_witness :
    selectFetchPath 0 (sevenDaysMs + 1) = FetchPath.stale :=
  (selectFetchPath_boundary 0 (sevenDaysMs + 1)).1.mpr (by decide)

/-- C3 (counterexample): at an age of exactly 7 days the claim demands the
Stale path, but the strict comparison of the source routes Recent. -/
theorem selectFetchPath_exactly_seven_days_cex :
    selectFetchPath 0 sevenDaysMs = FetchPath.recent ∧
    sevenDaysMs - 0 ≥ sevenDaysMs := by decide

/-- C4: when the conversation id of the first-fetched post differs from the
requested id, the resolver performs a second fetch by the conversation id,
and (for an id-faithful fetch oracle) the id of the resolved root post always
equals the conversation id of the first-fetched post. -/
theorem resolveRoot_refetches_conversation (fetch : String → Tweet)
    (tweetId : String) (hid : ∀ i, (fetch i).data.id = i) :
    ((fetch tweetId).data.conversation_id ≠ tweetId →
      (resolveRoot fetch tweetId).2 = 2) ∧
    (resolveRoot fetch tweetId).1.data.id =
      (fetch tweetId).data.conversation_id := by
  by_cases h : (fetch tweetId).data.conversation_id = tweetId
  · refine ⟨fun hne => absurd h hne, ?_⟩
    simp [resolveRoot, h, hid tweetId]
  · refine ⟨fun _ => by simp [resolveRoot, h], ?_⟩
    simp [resolveRoot, h, hid]

/-- C4 (witness): the claim at a reply whose conversation root is post 1. -/
theorem resolveRoot_refetches_conversation_witness :
    (resolveRoot sampleFetch "2").2 = 2 ∧
    (resolveRoot sampleFetch "2").1.data.id =
      (sampleFetch "2").data.conversation_id := by
  have h := resolveRoot_refetches_conversation sampleFetch "2" (fun i => rfl)
  exact ⟨h.1 (by decide), h.2⟩

/-- C7 (amended): the browser-automation scan examines only the first 100
timestamp elements; it returns one identifier per examined timestamp that is
wrapped in a link with a valid trailing-path id, so the list never exceeds
100 entries, and it has exactly M entries whenever the document has at most
100 timestamps of which M are validly wrapped. -/
theorem scan_returns_valid_count (nodes : List TimeNode) :
    (getTweetIdsFromDom nodes).length ≤ 100 ∧
    (getTweetIdsFromDom nodes).length =
      ((nodes.take 100).filter wrappedInLinkWithId).length ∧
    (nodes.length ≤ 100 →
      (getTweetIdsFromDom nodes).length =
        (nodes.filter wrappedInLinkWithId).length) := by
  have hcount : (getTweetIdsFromDom nodes).length =
      ((nodes.take 100).filter wrappedInLinkWithId).length := by
    unfold getTweetIdsFromDom MAX_THREAD_DEPTH
    rw [length_filterMap_eq_length_filter]
    congr 1
    apply List.filter_congr
    intro n _
    rw [scanTimeNode_isSome_eq]
  refine ⟨?_, hcount, fun hlen => ?_⟩
  · rw [hcount]
    calc ((nodes.take 100).filter wrappedInLinkWithId).length
        ≤ (nodes.take 100).length := List.length_filter_le _ _
      _ ≤ 100 := by rw [List.length_take]; omega
  · rw [hcount, List.take_of_length_le hlen]

/-- C7 (witness): the amended claim on a 2-timestamp document with one
validly wrapped timestamp. -/
theorem scan_returns_valid_count_witness :
    (getTweetIdsFromDom [cexLinkNode, cexSpanNode]).length =
      ([cexLinkNode, cexSpanNode].filter wrappedInLinkWithId).length :=
  (scan_returns_valid_count [cexLinkNode, cexSpanNode]).2.2 (by decide)

/-- C7 (counterexample): a document with 101 timestamps, of which the 100
validly wrapped ones sit after a span-wrapped first one: the cap applies to
the scanned timestamps, so only 99 identifiers are recovered, not M = 100. -/
theorem scan_cap_misses_valid_cex :
    (getTweetIdsFromDom cexNodes).length = 99 ∧
    (cexNodes.filter wrappedInLinkWithId).length = 100 ∧
    (getTweetIdsFromDom cexNodes).length ≠
      (cexNodes.filter wrappedInLinkWithId).length := by decide

/-- C8: an exception from the in-browser scan is caught and logged, and the
fallback returns the empty identifier list instead of propagating it. -/
theorem scan_exception_returns_empty (e : String) :
    getTweetIdsExec (Except.ok ()) (Except.error e) =
      { result := Except.ok [], closeCalls := 1, loggedErrors := [e] } := rfl

/-- C9: once the browser is launched, `browser.close()` runs exactly once on
every exit path of the call — successful scan or scan exception. -/
theorem browser_closed_exactly_once (pageOutcome : Except String (List String)) :
    (getTweetIdsExec (Except.ok ()) pageOutcome).closeCalls = 1 := by
  cases pageOutcome <;> rfl

/-- C1 (amended): the og:title and og:description metadata values are the
HTML-escape of the author-supplied title and post text — an input containing
the character lt yields the entity in the output and the escaped value never
contains a raw lt — but the body text of each post is interpolated into its
paragraph verbatim, without escaping. -/
theorem ogFields_escaped_body_verbatim :
    (∀ author : TwitterUser, '<' ∉ (ogTitle author).toList) ∧
    (∀ td : TweetData, '<' ∉ (ogDescription td).toList) ∧
    (∀ s : String, '<' ∈ s.toList → "&lt;".toList <:+: (escape s).toList) ∧
    (∀ (pageUrl : String) (tw : Tweet), tw.data.entities.urls = [] →
      tw.data.text.toList <:+: (renderTweetHtml pageUrl tw).toList) := by
  refine ⟨fun a => lt_not_mem_escapeList _, fun td => lt_not_mem_escapeList _,
    fun s h => lt_escape_infix _ h, fun pageUrl tw h => ?_⟩
  have htext : substituteUrls tw.data.entities.urls tw.data.text = tw.data.text := by
    rw [h]
    rfl
  unfold renderTweetHtml
  rw [htext]
  refine ⟨"\n      <p>".toList,
    ("</p>\n      " ++ includesHtml pageUrl tw ++ "\n    ").toList, ?_⟩
  simp only [toList_append, List.append_assoc]

/-- C1 (witness): the amended claim at the character lt and at a post whose
text is raw markup. -/
theorem ogFields_escaped_body_verbatim_witness :
    "&lt;".toList <:+: (escape "<").toList ∧
    "<b>x</b>".toList <:+: (renderTweetHtml "u" unescapedTweet).toList := by
  have h := ogFields_escaped_body_verbatim
  exact ⟨h.2.2.1 "<" (by decide), h.2.2.2 "u" unescapedTweet rfl⟩

/-- C1 (counterexample): a post whose text contains raw markup is rendered
into its paragraph untouched — the output contains the raw lt characters and
no entity — refuting the claim that every author-supplied text field is
escaped. -/
theorem body_text_unescaped_cex :
    renderTweetHtml "u" unescapedTweet = "\n      <p><b>x</b></p>\n      \n    " ∧
    ¬ ("&lt;".toList <:+: (renderTweetHtml "u" unescapedTweet).toList) ∧
    '<' ∈ unescapedTweet.data.text.toList := by decide

/-- C6 (amended): the entity loop processes entities left to right, one
`replace` call per entity; each call replaces exactly the first occurrence
of the raw entity url when it is present (leaving the surrounding text, and
hence every untracked url, verbatim around it) and leaves the text unchanged
when it is absent; the inserted fragment is the anchor template after the
JavaScript dollar-substitution of `replace`, which equals the anchor to the
expanded url with the display text exactly when the anchor carries no dollar
character.  A text containing none of the tracked urls is left entirely
unchanged by the whole loop. -/
theorem urlEntity_replacement :
    (∀ (e : UrlEntity) (es : List UrlEntity) (text : String),
      substituteUrls (e :: es) text =
        substituteUrls es (replaceFirst text e.url (anchorHtml e))) ∧
    (∀ (e : UrlEntity) (text : String), ¬ e.url.toList <:+: text.toList →
      replaceFirst text e.url (anchorHtml e) = text) ∧
    (∀ (e : UrlEntity) (text : String), e.url.toList ≠ [] →
      e.url.toList <:+: text.toList →
      ∃ pre suf, text.toList = pre ++ e.url.toList ++ suf ∧
        (replaceFirst text e.url (anchorHtml e)).toList =
          pre ++ getSubstitution e.url.toList pre suf (anchorHtml e).toList ++
            suf ∧
        ('$' ∉ (anchorHtml e).toList →
          (replaceFirst text e.url (anchorHtml e)).toList =
            pre ++ (anchorHtml e).toList ++ suf) ∧
        ∀ pre2 suf2, text.toList = pre2 ++ e.url.toList ++ suf2 →
          pre.length ≤ pre2.length) ∧
    (∀ (es : List UrlEntity) (text : String),
      (∀ e ∈ es, ¬ e.url.toList <:+: text.toList) →
      substituteUrls es text = text) := by
  have hstep : ∀ (e : UrlEntity) (text : String),
      ¬ e.url.toList <:+: text.toList →
      replaceFirst text e.url (anchorHtml e) = text := by
    intro e text hno
    unfold replaceFirst
    rw [replaceFirstAux_not_occurs e.url.toList (anchorHtml e).toList
      text.toList [] hno]
    exact mk_toList text
  refine ⟨fun e es text => rfl, hstep, ?_, ?_⟩
  · intro e text hne hocc
    obtain ⟨pre, suf, h1, h2, h3⟩ :=
      replaceFirstAux_first_occurrence e.url.toList (anchorHtml e).toList hne
        text.toList [] hocc
    refine ⟨pre, suf, h1, h2, fun hnd => ?_, h3⟩
    rw [show (replaceFirst text e.url (anchorHtml e)).toList =
      pre ++ getSubstitution e.url.toList pre suf (anchorHtml e).toList ++ suf
      from h2, getSubstitution_no_dollar e.url.toList pre suf
      (anchorHtml e).toList hnd]
  · intro es text
    induction es with
    | nil =>
      intro _
      rfl
    | cons e es ih =>
      intro h
      show substituteUrls es (replaceFirst text e.url (anchorHtml e)) = text
      rw [hstep e text (h e (List.mem_cons_self e es))]
      exact ih (fun e₂ he₂ => h e₂ (List.mem_cons_of_mem e he₂))

/-- C6 (witness): the amended claim at a dollar-free entity whose url occurs
once — the loop exchanges the url for the anchor exactly (length bookkeeping
of the decomposition plus the evaluated output) — and at an untracked url,
which leaves the text unchanged. -/
theorem urlEntity_replacement_witness :
    (substituteUrls [sampleEntity] sampleText).toList.length +
        sampleEntity.url.toList.length =
      sampleText.toList.length + (anchorHtml sampleEntity).toList.length ∧
    substituteUrls [sampleEntity] sampleText =
      "see <a href=\"http://ex.com\">ex.com</a> end" ∧
    substituteUrls [untrackedEntity] sampleText = sampleText := by
  have h := urlEntity_replacement
  refine ⟨?_, by decide, h.2.2.2 [untrackedEntity] sampleText (by decide)⟩
  obtain ⟨pre, suf, h1, -, h3, -⟩ :=
    h.2.2.1 sampleEntity sampleText (by decide) (by decide)
  have h2 : (substituteUrls [sampleEntity] sampleText).toList =
      pre ++ (anchorHtml sampleEntity).toList ++ suf := h3 (by decide)
  rw [h1, h2]
  simp only [List.length_append]
  omega

/-- C6 (counterexample): an entity whose expanded url is the
dollar-ampersand pattern — the inserted fragment is not the anchor to the
expanded url: `replace` substitutes the pattern with the matched url, so the
output differs from the text with that anchor spliced in. -/
theorem dollar_substitution_cex :
    substituteUrls [dollarEntity] dollarText = "x<a href=\"u\">d</a>y" ∧
    substituteUrls [dollarEntity] dollarText ≠
      "x" ++ anchorHtml dollarEntity ++ "y" ∧
    dollarText = "x" ++ dollarEntity.url ++ "y" := by decide

/-- C5: the extractor succeeds exactly on the strings matching the
recognized Twitter status pattern, and whenever it succeeds it returns the
non-empty digit sequence that follows the `status/` or `statuses/` path
segment; on every other string it returns the not-found value.  The
extractor is a total function into an option type, so it never throws. -/
theorem tweetIdFromStatusUrl_spec (url : String) :
    ((tweetIdFromStatusUrl url).isSome = true ↔ recognizedStatusUrl url.toList) ∧
    (∀ tid, tweetIdFromStatusUrl url = some tid →
      tid.toList ≠ [] ∧ tid.toList.all Char.isDigit = true ∧
      (("/status/".toList ++ tid.toList) <:+: url.toList ∨
        ("/statuses/".toList ++ tid.toList) <:+: url.toList)) := by
  constructor
  · constructor
    · intro hsome
      unfold tweetIdFromStatusUrl at hsome
      rw [isSome_map_eq] at hsome
      obtain ⟨d, hd⟩ := Option.isSome_iff_exists.mp hsome
      obtain ⟨suf, hsuf, hmatch⟩ := findStatusId_sound url.toList d hd
      obtain ⟨bang, handle, sep, rest, heq, hbang, hh, hhw, hsep, hdn, hdd⟩ :=
        matchStatusAt_sound suf d hmatch
      obtain ⟨pre, hpre⟩ := hsuf
      rcases hsep with hs | hs
      · refine ⟨pre, bang, handle, [], d, rest, ?_, hbang, hh, hhw, Or.inl rfl,
          hdn, hdd⟩
        rw [← hpre, heq, hs]
        simp [List.append_assoc]
      · refine ⟨pre, bang, handle, "es".toList, d, rest, ?_, hbang, hh, hhw,
          Or.inr rfl, hdn, hdd⟩
        rw [← hpre, heq, hs,
          show ("es/".toList : List Char) = "es".toList ++ "/".toList from rfl]
        simp [List.append_assoc]
    · intro hrec
      obtain ⟨pre, bang, handle, es, tid, post, heq, hbang, hh, hhw, hes, htn,
        htdd⟩ := hrec
      have hsep2 : ∃ sep, (sep = "/".toList ∨ sep = "es/".toList) ∧
          es ++ "/".toList = sep := by
        rcases hes with h | h
        · exact ⟨"/".toList, Or.inl rfl, by subst h; rfl⟩
        · exact ⟨"es/".toList, Or.inr rfl, by subst h; rfl⟩
      obtain ⟨sep, hsepor, hsepe⟩ := hsep2
      have hcm := matchStatusAt_complete bang handle sep tid post hbang hh hhw
        hsepor htn htdd
      have hsuf : ("twitter.com/".toList ++ bang ++ handle ++ "/status".toList ++
          sep ++ tid ++ post) <:+ url.toList := by
        refine ⟨pre, ?_⟩
        rw [heq, ← hsepe]
        simp [List.append_assoc]
      have hfind := findStatusId_complete url.toList _ hsuf hcm
      unfold tweetIdFromStatusUrl
      rw [isSome_map_eq]
      exact hfind
  · intro tid htid
    unfold tweetIdFromStatusUrl at htid
    obtain ⟨d, hfind, hmk⟩ := Option.map_eq_some'.mp htid
    subst hmk
    obtain ⟨suf, hsuf, hmatch⟩ := findStatusId_sound url.toList d hfind
    obtain ⟨bang, handle, sep, rest, heq, hbang, hh, hhw, hsep, hdn, hdd⟩ :=
      matchStatusAt_sound suf d hmatch
    obtain ⟨pre, hpre⟩ := hsuf
    refine ⟨hdn, hdd, ?_⟩
    rcases hsep with hs | hs
    · left
      refine ⟨pre ++ "twitter.com/".toList ++ bang ++ handle, rest, ?_⟩
      rw [← hpre, heq, hs]
      simp only [List.append_assoc]
      rfl
    · right
      refine ⟨pre ++ "twitter.com/".toList ++ bang ++ handle, rest, ?_⟩
      rw [← hpre, heq, hs]
      simp only [List.append_assoc]
      rfl

/-- C5 (witness): the characterization at a concrete matching URL and a
concrete non-matching string. -/
theorem tweetIdFromStatusUrl_spec_witness :
    (tweetIdFromStatusUrl "https://twitter.com/jack/status/20").isSome = true ∧
    recognizedStatusUrl "https://twitter.com/jack/status/20".toList ∧
    (("/status/".toList ++ "20".toList) <:+:
        "https://twitter.com/jack/status/20".toList ∨
      ("/statuses/".toList ++ "20".toList) <:+:
        "https://twitter.com/jack/status/20".toList) ∧
    tweetIdFromStatusUrl "https://example.com/a" = none := by
  have h := tweetIdFromStatusUrl_spec "https://twitter.com/jack/status/20"
  refine ⟨by decide, h.1.mp (by decide), (h.2 "20" (by decide)).2.2, by decide⟩

/-- C10 (amended): for every root post with a non-empty included user list
and a non-empty (truthy) author id, the author lookup selects the first user
of the list regardless of any id, and overwrites the id field of every user
with the author id of the post — the filter predicate is an assignment, not a
comparison. -/
theorem authorLookup_first_regardless (u : TwitterUser) (us : List TwitterUser)
    (aid : String) (h : aid ≠ "") :
    (authorLookup (u :: us) aid).1 = some { u with id := aid } ∧
    (authorLookup (u :: us) aid).2 =
      (u :: us).map (fun v => { v with id := aid }) := by
  have ht : jsTruthy aid = true := by simp [jsTruthy, h]
  constructor
  · simp [authorLookup, filterWithAssign, ht]
  · simpa [authorLookup] using filterWithAssign_mutates aid (u :: us)

/-- C10 (witness): the amended claim at a one-user list with author id 7. -/
theorem authorLookup_first_regardless_witness :
    (authorLookup [sampleUser] "7").1 = some { sampleUser with id := "7" } ∧
    (authorLookup [sampleUser] "7").2 =
      [sampleUser].map (fun v => { v with id := "7" }) :=
  authorLookup_first_regardless sampleUser [] "7" (by decide)

/-- C10 (counterexample): with the empty author id the assigned value is
falsy, the filter keeps nothing, and the lookup yields `undefined` rather
than the first element of the non-empty user list. -/
theorem authorLookup_empty_authorId_cex :
    (authorLookup [sampleUser] "").1 = none ∧
    ([sampleUser] : List TwitterUser) ≠ [] := by decide

end OmnivoreTwitter
